import Mathlib

/-!
Verification of the authorsync identity-resolution engine.

The definitions below are a shallow embedding of the JavaScript source in
src/matcher.js (normalisation, similarity scoring, clustering) and, where the
source file is absent from the repository snapshot, models built from the
specification (selectCanonical and generateStats from src/mailmap.js).

Modelling conventions:
* JavaScript numbers are modelled as rationals (ℚ); commit counts as ℕ.
* JavaScript strings are modelled as Lean String values, manipulated through
  their underlying character lists.  The inputs relevant to the engine are
  ASCII, where Char.toLower agrees with the JavaScript toLowerCase.
* Array.prototype.sort with a comparator is stable; it is modelled by a stable
  insertion sort on the boolean relation "comparator result is not positive".
-/

namespace AuthorSync

/-- JavaScript toLowerCase, modelled characterwise. -/
def jsToLower (s : String) : String :=
  String.mk (s.data.map Char.toLower)

/-- Test whether the list sub occurs at the front of l. -/
def leadsList (sub l : List Char) : Bool :=
  match sub, l with
  | [], _ => true
  | _ :: _, [] => false
  | a :: as, b :: bs => a = b && leadsList as bs

/-- Test whether sub occurs contiguously somewhere inside l
(JavaScript String.prototype.includes). -/
def occursIn (sub l : List Char) : Bool :=
  match l with
  | [] => leadsList sub []
  | _ :: rest => leadsList sub l || occursIn sub rest

/-- JavaScript s.includes(sub) on strings. -/
def strIncludes (s sub : String) : Bool :=
  occursIn sub.data s.data

/-- JavaScript String.prototype.split with a single-character separator:
"a b".split(" ") = ["a","b"], "".split(" ") = [""], "a  b" gives an empty
middle field. -/
def splitOnChar (sep : Char) : List Char → List (List Char)
  | [] => [[]]
  | c :: rest =>
    let r := splitOnChar sep rest
    if c = sep then [] :: r
    else
      match r with
      | s :: ss => (c :: s) :: ss
      | [] => [[c]]

/-- An author identity record: src/matcher.js Author typedef. -/
structure Identity where
  name : String
  email : String
  commits : Nat
deriving DecidableEq, Repr

/-- Result of emailsMatch: the match/confidence/reason verdict. -/
structure EmailVerdict where
  isMatch : Bool
  confidence : ℚ
  reason : String
deriving DecidableEq, Repr

/-- A cluster of identities believed to be the same person:
src/matcher.js IdentityCluster typedef. -/
structure IdentityCluster where
  canonical : Identity
  aliases : List Identity
  confidence : ℚ
  reason : String
deriving DecidableEq, Repr

/-- Keep the non-space characters and replace the first of every run of
spaces by a single space: the effect of replacing whitespace runs by one
space (source regex replace of runs of spaces). -/
def squeezeSpaces : List Char → List Char
  | [] => []
  | [c] => [c]
  | a :: b :: rest =>
    if a = ' ' && b = ' ' then squeezeSpaces (b :: rest)
    else a :: squeezeSpaces (b :: rest)

/-- Drop spaces at both ends (String.prototype.trim; after normalisation the
only whitespace character left is the plain space). -/
def trimSpaces (l : List Char) : List Char :=
  ((l.dropWhile (fun c => c = ' ')).reverse.dropWhile (fun c => c = ' ')).reverse

/-- Is the character in the class kept by the source regex [^a-z0-9]. -/
def isKeptChar (c : Char) : Bool :=
  ('a' ≤ c && c ≤ 'z') || ('0' ≤ c && c ≤ '9')

/-- src/matcher.js normalizeName: lowercase, replace every character outside
[a-z0-9] by a space, collapse whitespace runs, trim. -/
def normalizeName (name : String) : String :=
  String.mk (trimSpaces (squeezeSpaces
    ((name.data.map Char.toLower).map (fun c => if isKeptChar c then c else ' '))))

/-- src/matcher.js emailLocal: the part before the first at-sign, lowercased
(the whole string when there is no at-sign). -/
def emailLocal (email : String) : String :=
  jsToLower (String.mk ((splitOnChar '@' email.data).headD []))

/-- src/matcher.js emailDomain: the second field of the at-sign split,
lowercased; the empty string when that field is missing or empty. -/
def emailDomain (email : String) : String :=
  match splitOnChar '@' email.data with
  | _ :: d :: _ => if d = [] then "" else jsToLower (String.mk d)
  | _ => ""

/-- src/matcher.js isNoReply: noreply markers, the two hosting-provider
noreply suffixes, or a plus character anywhere. -/
def isNoReply (email : String) : Bool :=
  let lower := jsToLower email
  strIncludes lower "noreply" ||
  strIncludes lower "no-reply" ||
  strIncludes lower "@users.noreply.github.com" ||
  strIncludes lower "@users.noreply.gitlab.com" ||
  strIncludes lower "+"

/-- One inner step of the Levenshtein dynamic-programming table of
src/matcher.js: given the character bc of the second string, the remaining
characters of the first string, the remaining entries of the previous row
(starting at the diagonal entry), and the entry just written in the new row,
produce the remaining entries of the new row. -/
def levRow (bc : Char) : List Char → List Nat → Nat → List Nat
  | [], _, _ => []
  | ac :: rest, pPrev :: pRest, nPrev =>
    let pCur := pRest.headD 0
    let nCur := if bc = ac then pPrev else 1 + min pPrev (min nPrev pCur)
    nCur :: levRow bc rest pRest nCur
  | _ :: _, [], _ => []

/-- The full table of src/matcher.js levenshtein, one row per character of b,
returning the final row.  Row zero is 0,1,...,|a| and each later row i starts
with i; the cell for (i,j) is the diagonal entry when the characters agree and
otherwise one plus the minimum of the diagonal, left and upper entries. -/
def levTable (a b : List Char) : List Nat :=
  (b.foldl
    (fun st bc =>
      ((st.2 + 1) :: levRow bc a st.1 (st.2 + 1), st.2 + 1))
    (List.range (a.length + 1), 0)).1

/-- src/matcher.js levenshtein: early returns for empty strings, otherwise the
bottom-right cell of the dynamic-programming table. -/
def levenshtein (a b : String) : Nat :=
  if a.length = 0 then b.length
  else if b.length = 0 then a.length
  else (levTable a.data b.data).getLastD 0

/-- The word-overlap (Jaccard) similarity used by nameSimilarity: distinct
space-split words of each normalized name, shared-word count over the size of
the union. -/
def jaccardSim (n1 n2 : String) : ℚ :=
  let words1 := (splitOnChar ' ' n1.data).dedup
  let words2 := (splitOnChar ' ' n2.data).dedup
  let inter := (words1.filter (fun w => w ∈ words2)).length
  let union := (words1 ++ words2).dedup.length
  (inter : ℚ) / (union : ℚ)

/-- src/matcher.js nameSimilarity: equal normalized names give 1, an empty
normalized name gives 0, containment gives 0.9, word overlap above one half
gives 0.7 + 0.2 times the Jaccard value, otherwise the Levenshtein similarity
1 - distance / max length. -/
def nameSimilarity (name1 name2 : String) : ℚ :=
  let n1 := normalizeName name1
  let n2 := normalizeName name2
  if n1 = n2 then 1
  else if n1 = "" ∨ n2 = "" then 0
  else if strIncludes n1 n2 || strIncludes n2 n1 then 0.9
  else
    let jac := jaccardSim n1 n2
    if jac > 0.5 then 0.7 + jac * 0.2
    else 1 - (levenshtein n1 n2 : ℚ) / (max n1.length n2.length : ℚ)

/-- The capture of the source regex for provider noreply addresses,
anchored form: optional digits-plus run, then a nonempty at-sign-free
username, then the fixed host suffix.  Returns the username capture when the
whole (lowercased) email matches, and none otherwise.  The digits run is
greedy, so a leading digits-plus block is stripped exactly when it leaves a
nonempty remainder. -/
def ghUsername (e : String) : Option String :=
  let suffix := "@users.noreply.github.com".data
  let n := e.data.length - suffix.length
  let localPart := e.data.take n
  if e.data = localPart ++ suffix ∧ localPart ≠ [] ∧ '@' ∉ localPart then
    let ds := localPart.takeWhile Char.isDigit
    let rest := localPart.drop ds.length
    match ds, rest with
    | _ :: _, '+' :: r :: rs => some (String.mk (r :: rs))
    | _, _ => some (String.mk localPart)
  else none

/-- src/matcher.js emailsMatch: exact lowercased equality, then equal local
parts longer than three characters, then the provider noreply patterns, in the
order of the source. -/
def emailsMatch (email1 email2 : String) : EmailVerdict :=
  let e1 := jsToLower email1
  let e2 := jsToLower email2
  if e1 = e2 then ⟨true, 1, "exact-email"⟩
  else
    let local1 := emailLocal e1
    let local2 := emailLocal e2
    if local1 = local2 ∧ 3 < local1.length then ⟨true, 0.8, "same-local-part"⟩
    else
      match ghUsername e1, ghUsername e2 with
      | some u1, some u2 =>
        if u1 = u2 then ⟨true, 0.95, "github-noreply-username"⟩
        else if local2 = u1 then ⟨true, 0.7, "github-noreply-match"⟩
        else if local1 = u2 then ⟨true, 0.7, "github-noreply-match"⟩
        else ⟨false, 0, ""⟩
      | some u1, none =>
        if local2 = u1 then ⟨true, 0.7, "github-noreply-match"⟩ else ⟨false, 0, ""⟩
      | none, some u2 =>
        if local1 = u2 then ⟨true, 0.7, "github-noreply-match"⟩ else ⟨false, 0, ""⟩
      | none, none => ⟨false, 0, ""⟩

/-- The confidence and reason assigned to the pair (canonical, candidate) by
the inner loop of src/matcher.js findClusters: the email verdict when the
emails match, the name-similarity rules when they do not, and the
name-mismatch discount overriding a matching email when the names are very
different. -/
def pairScore (canonical candidate : Identity) : ℚ × String :=
  let emailResult := emailsMatch canonical.email candidate.email
  let s1 : ℚ × String :=
    if emailResult.isMatch then (emailResult.confidence, emailResult.reason) else (0, "")
  let s2 : ℚ × String :=
    if !emailResult.isMatch then
      let nameSim := nameSimilarity canonical.name candidate.name
      if nameSim > 0.8 then
        if emailDomain canonical.email = emailDomain candidate.email then
          (nameSim * 0.9, "similar-name-same-domain")
        else
          (nameSim * 0.7, "similar-name")
      else s1
    else s1
  if emailResult.isMatch ∧ nameSimilarity canonical.name candidate.name < 0.3 then
    (emailResult.confidence * 0.6, emailResult.reason ++ "-name-mismatch")
  else s2

/-- The inner j-loop of findClusters for one canonical: scan the not yet
assigned identities in order, accept each candidate whose pair score reaches
minConfidence, and record the first reason of an accepted candidate while the
cluster reason is still empty.  Returns the accepted aliases, the remaining
unassigned identities in their original order, and the cluster reason. -/
def collectAliases (canonical : Identity) (minConf : ℚ) :
    List Identity → String → List Identity × List Identity × String
  | [], creason => ([], [], creason)
  | candidate :: rest, creason =>
    let sc := pairScore canonical candidate
    if minConf ≤ sc.1 then
      let creason' := if creason = "" then sc.2 else creason
      let r := collectAliases canonical minConf rest creason'
      (candidate :: r.1, r.2.1, r.2.2)
    else
      let r := collectAliases canonical minConf rest creason
      (r.1, candidate :: r.2.1, r.2.2)

/-- The confidence the source stores on an emitted cluster:
Math.min over one copy of 0.8 per alias (the emit site guarantees the alias
list is nonempty, so the spread is a nonempty minimum). -/
def clusterConfidence (aliases : List Identity) : ℚ :=
  (aliases.map (fun _ => (0.8 : ℚ))).foldl Min.min 0.8

/-- The outer i-loop of findClusters on the sorted identity list, with the
assigned set represented by removal from the remaining list.  The fuel
argument bounds the recursion; each step consumes the head identity, so the
length of the list suffices. -/
def buildClustersFuel (minConf : ℚ) : Nat → List Identity → List IdentityCluster
  | 0, _ => []
  | _, [] => []
  | fuel + 1, canonical :: rest =>
    let r := collectAliases canonical minConf rest ""
    if r.1 = [] then buildClustersFuel minConf fuel rest
    else
      { canonical := canonical, aliases := r.1,
        confidence := clusterConfidence r.1, reason := r.2.2 }
        :: buildClustersFuel minConf fuel r.2.1

/-- The cluster-building pass of findClusters over the sorted list. -/
def buildClusters (minConf : ℚ) (l : List Identity) : List IdentityCluster :=
  buildClustersFuel minConf l.length l

/-- Stable insertion of one element: x is placed before the first y with
le x y, so elements considered earlier stay before later ties. -/
def sortInsert (le : α → α → Bool) (x : α) : List α → List α
  | [] => [x]
  | y :: ys => if le x y then x :: y :: ys else y :: sortInsert le x ys

/-- Stable sort (insertion sort).  JavaScript Array.prototype.sort with a
comparator is specified to be a stable sort; any stable algorithm produces
the same list, and insertion sort keeps the proofs elementary. -/
def stableSort (le : α → α → Bool) : List α → List α
  | [] => []
  | x :: xs => sortInsert le x (stableSort le xs)

/-- The comparator (a, b) => b.commits - a.commits of findClusters: a comes
no later than b exactly when its commit count is at least that of b. -/
def byCommitsDesc (a b : Identity) : Bool :=
  b.commits ≤ a.commits

/-- Total commits of a cluster: canonical plus the foldl over the aliases. -/
def clusterTotalCommits (c : IdentityCluster) : Nat :=
  c.canonical.commits + c.aliases.foldl (fun sum al => sum + al.commits) 0

/-- The comparator of the final cluster sort of findClusters. -/
def byTotalCommitsDesc (a b : IdentityCluster) : Bool :=
  clusterTotalCommits b ≤ clusterTotalCommits a

/-- The default of the minConfidence option of findClusters. -/
def defaultMinConfidence : ℚ := 0.6

/-- src/matcher.js findClusters: sort a copy of the input by commit count
descending, run the greedy clustering pass, and sort the emitted clusters by
total commits descending. -/
def findClusters (authors : List Identity) (minConfidence : ℚ) :
    List IdentityCluster :=
  stableSort byTotalCommitsDesc
    (buildClusters minConfidence (stableSort byCommitsDesc authors))

/-- State-passing model of the caller frame of findClusters.  JavaScript
Array.prototype.sort mutates its receiver, but the source sorts the spread
copy in the statement building sorted from the input, so the receiver of the
mutating sort is the fresh copy.  The second component is the value of the
caller array after the call. -/
def findClustersCallerArray (authors : List Identity) (minConfidence : ℚ) :
    List IdentityCluster × List Identity :=
  let copied := authors
  let sorted := stableSort byCommitsDesc copied
  (stableSort byTotalCommitsDesc (buildClusters minConfidence sorted), authors)

/-- Modelled from the spec: well-known free-mail domains contrasted with
company-looking domains in section 4.4; the concrete list is an
implementation choice (src/mailmap.js is not in the repository snapshot). -/
def freeMailDomains : List String :=
  ["gmail.com", "yahoo.com", "hotmail.com", "outlook.com", "aol.com"]

/-- Modelled from the spec: generic placeholder local names penalised by the
canonical selector in section 4.4. -/
def genericNames : List String :=
  ["root", "admin", "user", "administrator", "unknown"]

/-- Modelled from the spec: the count of non-trivial tokens of a name used by
the tie-break of section 4.4 (tokens of at least two characters). -/
def nonTrivialTokens (name : String) : Nat :=
  ((splitOnChar ' ' (normalizeName name).data).filter (fun w => 2 ≤ w.length)).length

/-- Modelled from the spec: the composite score of the canonical selector of
section 4.4.  Base score is the commit count; a multiplicative penalty for
no-reply addresses and for generic placeholder names; a multiplicative bonus
for company-looking (non-free-mail, nonempty) domains.  The exact numeric
weights are an implementation choice per the spec. -/
def canonicalScore (i : Identity) : ℚ :=
  let base : ℚ := (i.commits : ℚ)
  let s1 := if isNoReply i.email then base * (1 / 10) else base
  let s2 := if normalizeName i.name ∈ genericNames then s1 * (1 / 10) else s1
  if emailDomain i.email ≠ "" ∧ emailDomain i.email ∉ freeMailDomains then
    s2 * (6 / 5)
  else s2

/-- Modelled from the spec: choose between the current best identity and a
later candidate; the candidate wins only with a strictly better score, or an
equal score and strictly more non-trivial name tokens, so the first maximum
wins exact ties. -/
def pickBetter (best cand : Identity) : Identity :=
  if canonicalScore best < canonicalScore cand ∨
      (canonicalScore cand = canonicalScore best ∧
        nonTrivialTokens best.name < nonTrivialTokens cand.name) then
    cand
  else best

/-- Modelled from the spec: selectCanonical of src/mailmap.js, absent from the
repository snapshot.  Section 4.4 and section 7: fails with an empty-input
error on zero identities (the only hard failure of the core), returns a
single identity unchanged, and otherwise returns the best-scoring identity. -/
def selectCanonical (identities : List Identity) : Except String Identity :=
  match identities with
  | [] => Except.error "selectCanonical: empty input"
  | [single] => Except.ok single
  | first :: rest => Except.ok (rest.foldl pickBetter first)

/-- The statistics record returned by generateStats. -/
structure ClusterStats where
  clustersFound : Nat
  aliasesConsolidated : Nat
  commitsAffected : Nat
  authorsAfter : Int
  reductionPercent : Int
deriving DecidableEq, Repr

/-- JavaScript Math.round: halves round toward positive infinity. -/
def jsRound (q : ℚ) : Int := ⌊q + 1 / 2⌋

/-- Modelled from the spec: generateStats of src/mailmap.js, absent from the
repository snapshot.  Section 4.5: aliasesConsolidated is the sum of alias
counts, commitsAffected the sum of alias commit counts, authorsAfter the
difference, and reductionPercent the rounded percentage, defined as 0 when
totalAuthorsBefore is 0. -/
def generateStats (clusters : List IdentityCluster) (totalAuthorsBefore : Nat) :
    ClusterStats :=
  let aliasesConsolidated := (clusters.map (fun c => c.aliases.length)).sum
  { clustersFound := clusters.length
    aliasesConsolidated := aliasesConsolidated
    commitsAffected := (clusters.map (fun c => (c.aliases.map Identity.commits).sum)).sum
    authorsAfter := (totalAuthorsBefore : Int) - (aliasesConsolidated : Int)
    reductionPercent :=
      if totalAuthorsBefore = 0 then 0
      else jsRound ((aliasesConsolidated : ℚ) / (totalAuthorsBefore : ℚ) * 100) }

/-- The textbook Levenshtein recurrence on character lists, peeling the first
characters.  The dynamic-programming table of the source computes exactly
this recurrence cell by cell; the equality is proved below. -/
def levRec : List Char → List Char → Nat
  | [], ys => ys.length
  | _ :: xs, [] => xs.length + 1
  | x :: xs, y :: ys =>
    if x = y then levRec xs ys
    else 1 + min (levRec xs ys) (min (levRec (x :: xs) ys) (levRec xs (y :: ys)))
termination_by xs ys => xs.length + ys.length
decreasing_by all_goals simp_arith

/-- The Levenshtein recurrence read off the reversed lists: this is the value
the prefix-indexed table of the source computes, since cell (i, j) of that
table is the distance between the length-j prefix of a and the length-i
prefix of b. -/
def levRecRev (xs ys : List Char) : Nat :=
  levRec xs.reverse ys.reverse

/-- An alignment of two character lists transforming the first into the
second, counting one unit for every single-character substitution, insertion
or deletion and nothing for kept characters.  Edits xs ys n holds exactly
when xs can be turned into ys by an edit script of n such operations, so the
minimum n with Edits xs ys n is the edit distance of the specification. -/
inductive Edits : List Char → List Char → Nat → Prop
  | nil : Edits [] [] 0
  | keep {xs ys : List Char} {n : Nat} (a : Char) :
      Edits xs ys n → Edits (a :: xs) (a :: ys) n
  | substCh {xs ys : List Char} {n : Nat} {a b : Char} (h : a ≠ b) :
      Edits xs ys n → Edits (a :: xs) (b :: ys) (n + 1)
  | insertCh {xs ys : List Char} {n : Nat} (b : Char) :
      Edits xs ys n → Edits xs (b :: ys) (n + 1)
  | deleteCh {xs ys : List Char} {n : Nat} (a : Char) :
      Edits xs ys n → Edits (a :: xs) ys (n + 1)

/-! Concrete inputs used by counterexamples and witnesses. -/

/-- Identity A of the minConfidence counterexample. -/
def idJohnSmith : Identity := ⟨"John Smith", "a@corp.com", 100⟩

/-- Identity B of the minConfidence counterexample. -/
def idJonSmith : Identity := ⟨"Jon Smith", "bs@corp.com", 90⟩

/-- Identity C of the minConfidence counterexample. -/
def idJSmith : Identity := ⟨"J Smith", "bs@corp.com", 80⟩

/-- Identity D of the minConfidence counterexample. -/
def idJohnSmyth : Identity := ⟨"John Smyth", "ds@corp.com", 70⟩

/-- Identity E of the minConfidence counterexample. -/
def idJohnnyS : Identity := ⟨"Johnny S", "ds@corp.com", 60⟩

/-- The five-identity input of the minConfidence counterexample.  At
minConfidence 1 the greedy pass emits the two exact-email clusters
(B with C, D with E); at minConfidence 7/10 the highest-commit identity A
absorbs B and D first, leaving C and E unmatched, so only one cluster
remains. -/
def monotoneCounterInput : List Identity :=
  [idJohnSmith, idJonSmith, idJSmith, idJohnSmyth, idJohnnyS]

/-- Two identities sharing one email but carrying unrelated names. -/
def idAliceShared : Identity := ⟨"Alice", "shared@example.com", 10⟩

/-- Second identity of the shared-email pair with an unrelated name. -/
def idBobShared : Identity := ⟨"Bob", "shared@example.com", 5⟩

/-- Two identities sharing one email with close names. -/
def idJohnDoe : Identity := ⟨"John Doe", "john@example.com", 100⟩

/-- Second identity of the close-name shared-email pair. -/
def idJohnD : Identity := ⟨"John D", "john@example.com", 10⟩

/-- The cluster findClusters emits for the close-name shared-email pair at the
default minConfidence. -/
def exactEmailCluster : IdentityCluster :=
  ⟨idJohnDoe, [idJohnD], 0.8, "exact-email"⟩

/-! ### Permutation lemmas for the sorting and clustering passes -/

theorem sortInsert_perm (le : α → α → Bool) (x : α) :
    ∀ l : List α, (sortInsert le x l).Perm (x :: l)
  | [] => List.Perm.refl _
  | y :: ys => by
    unfold sortInsert
    by_cases h : le x y
    · simp [h]
    · simp only [h, if_false, Bool.false_eq_true]
      exact ((sortInsert_perm le x ys).cons y).trans (List.Perm.swap x y ys)

theorem stableSort_perm (le : α → α → Bool) :
    ∀ l : List α, (stableSort le l).Perm l
  | [] => List.Perm.refl _
  | x :: xs => (sortInsert_perm le x _).trans ((stableSort_perm le xs).cons x)

theorem collectAliases_perm (c : Identity) (mc : ℚ) :
    ∀ (l : List Identity) (creason : String),
      ((collectAliases c mc l creason).1 ++
        (collectAliases c mc l creason).2.1).Perm l
  | [], creason => by simp [collectAliases]
  | cand :: rest, creason => by
    unfold collectAliases
    by_cases h : mc ≤ (pairScore c cand).1
    · simp only [h, if_true, if_pos]
      exact (collectAliases_perm c mc rest _).cons cand
    · simp only [h, if_false, if_neg, not_false_iff]
      exact List.perm_middle.trans ((collectAliases_perm c mc rest creason).cons cand)

theorem collectAliases_leftover_length (c : Identity) (mc : ℚ)
    (l : List Identity) (creason : String) :
    (collectAliases c mc l creason).2.1.length ≤ l.length := by
  have h := (collectAliases_perm c mc l creason).length_eq
  rw [List.length_append] at h
  omega

theorem clusterConfidence_foldl (q : ℚ) :
    ∀ l : List Identity, (l.map (fun _ => (0.8 : ℚ))).foldl Min.min (min q 0.8) = min q 0.8
  | [] => rfl
  | _ :: xs => by
    have h : min (min q 0.8) (0.8 : ℚ) = min (min q (0.8 : ℚ)) 0.8 := rfl
    simpa [min_assoc, min_self] using clusterConfidence_foldl (min q 0.8) xs

theorem clusterConfidence_eq (l : List Identity) : clusterConfidence l = 0.8 := by
  unfold clusterConfidence
  have h := clusterConfidence_foldl (0.8 : ℚ) l
  simpa [min_self] using h

theorem buildClustersFuel_mem (mc : ℚ) :
    ∀ (fuel : Nat) (l : List Identity) (c : IdentityCluster),
      c ∈ buildClustersFuel mc fuel l → c.aliases ≠ [] ∧ c.confidence = 0.8
  | 0, l, c => by simp [buildClustersFuel]
  | fuel + 1, [], c => by simp [buildClustersFuel]
  | fuel + 1, can :: rest, c => by
    unfold buildClustersFuel
    by_cases h : (collectAliases can mc rest "").1 = []
    · simp only [h, if_true, if_pos]
      exact buildClustersFuel_mem mc fuel rest c
    · simp only [h, if_false, if_neg, not_false_iff, List.mem_cons]
      rintro (rfl | hmem)
      · exact ⟨h, clusterConfidence_eq _⟩
      · exact buildClustersFuel_mem mc fuel _ c hmem

theorem buildClustersFuel_subperm (mc : ℚ) :
    ∀ (fuel : Nat) (l : List Identity),
      List.Subperm
        (((buildClustersFuel mc fuel l).map
          (fun c => c.canonical :: c.aliases)).flatten) l
  | 0, l => by simp [buildClustersFuel, List.nil_subperm]
  | fuel + 1, [] => by simp [buildClustersFuel, List.nil_subperm]
  | fuel + 1, can :: rest => by
    unfold buildClustersFuel
    by_cases h : (collectAliases can mc rest "").1 = []
    · simp only [h, if_true, if_pos]
      exact (buildClustersFuel_subperm mc fuel rest).cons_right can
    · simp only [h, if_false, if_neg, not_false_iff, List.map_cons, List.flatten_cons]
      have ih := buildClustersFuel_subperm mc fuel (collectAliases can mc rest "").2.1
      have hperm := collectAliases_perm can mc rest ""
      have hstep : List.Subperm
          (can :: ((collectAliases can mc rest "").1 ++
            ((buildClustersFuel mc fuel ((collectAliases can mc rest "").2.1)).map
              (fun c => c.canonical :: c.aliases)).flatten))
          (can :: ((collectAliases can mc rest "").1 ++
            (collectAliases can mc rest "").2.1)) := by
        rw [List.subperm_cons, List.subperm_append_left]
        exact ih
      have hgoal := hstep.trans ((hperm.cons can).subperm)
      simpa using hgoal

theorem findClusters_flatten_subperm (authors : List Identity) (mc : ℚ) :
    List.Subperm
      (((findClusters authors mc).map (fun c => c.canonical :: c.aliases)).flatten)
      authors := by
  unfold findClusters buildClusters
  refine List.Subperm.trans ?_ ((stableSort_perm byCommitsDesc authors).subperm)
  refine List.Subperm.trans
    (((((stableSort_perm byTotalCommitsDesc _).map
      (fun c => c.canonical :: c.aliases))).flatten).subperm) ?_
  exact buildClustersFuel_subperm mc _ _

theorem mem_findClusters_iff (authors : List Identity) (mc : ℚ)
    (c : IdentityCluster) :
    c ∈ findClusters authors mc ↔
      c ∈ buildClusters mc (stableSort byCommitsDesc authors) := by
  unfold findClusters
  exact (stableSort_perm byTotalCommitsDesc _).mem_iff

theorem findClusters_cluster_subperm (authors : List Identity) (mc : ℚ)
    (c : IdentityCluster) (hc : c ∈ findClusters authors mc) :
    List.Subperm (c.canonical :: c.aliases) authors := by
  have hmem : (c.canonical :: c.aliases) ∈
      (findClusters authors mc).map (fun c => c.canonical :: c.aliases) :=
    List.mem_map_of_mem _ hc
  exact (List.sublist_flatten_of_mem hmem).subperm.trans
    (findClusters_flatten_subperm authors mc)

/-- C4: every cluster emitted by findClusters has at least one alias (no
singleton clusters); the identity occurrences used across all clusters,
counting canonical and alias positions, form a sub-multiset of the input, so
each input occurrence appears in at most one cluster; consequently, for a
duplicate-free input every list canonical :: aliases is duplicate-free, so
the alias list has no duplicates and excludes the canonical. -/
theorem findClusters_cluster_invariants (authors : List Identity) (mc : ℚ) :
    (∀ c ∈ findClusters authors mc, c.aliases ≠ []) ∧
    List.Subperm
      (((findClusters authors mc).map (fun c => c.canonical :: c.aliases)).flatten)
      authors ∧
    (authors.Nodup → ∀ c ∈ findClusters authors mc,
      (c.canonical :: c.aliases).Nodup) := by
  refine ⟨?_, findClusters_flatten_subperm authors mc, ?_⟩
  · intro c hc
    rw [mem_findClusters_iff] at hc
    exact (buildClustersFuel_mem mc _ _ c hc).1
  · intro hnd c hc
    obtain ⟨u, hp, hs⟩ := findClusters_cluster_subperm authors mc c hc
    exact hp.nodup (hnd.sublist hs)

theorem findClusters_cluster_invariants_witness :
    ([idJohnDoe, idJohnD]).Nodup ∧
    exactEmailCluster ∈ findClusters [idJohnDoe, idJohnD] defaultMinConfidence ∧
    exactEmailCluster.aliases ≠ [] ∧
    (exactEmailCluster.canonical :: exactEmailCluster.aliases).Nodup ∧
    List.Subperm
      (((findClusters [idJohnDoe, idJohnD] defaultMinConfidence).map
        (fun c => c.canonical :: c.aliases)).flatten)
      [idJohnDoe, idJohnD] :=
  ⟨by with_unfolding_all decide, by with_unfolding_all decide,
    (findClusters_cluster_invariants [idJohnDoe, idJohnD] defaultMinConfidence).1
      exactEmailCluster (by with_unfolding_all decide),
    (findClusters_cluster_invariants [idJohnDoe, idJohnD] defaultMinConfidence).2.2
      (by with_unfolding_all decide) exactEmailCluster (by with_unfolding_all decide),
    (findClusters_cluster_invariants [idJohnDoe, idJohnD] defaultMinConfidence).2.1⟩

/-- C9: every cluster emitted by findClusters carries the constant confidence
0.8, regardless of the input, the minConfidence option and the per-alias
match confidences that caused the clustering. -/
theorem findClusters_confidence_constant (authors : List Identity) (mc : ℚ)
    (c : IdentityCluster) (hc : c ∈ findClusters authors mc) :
    c.confidence = 0.8 := by
  rw [mem_findClusters_iff] at hc
  exact (buildClustersFuel_mem mc _ _ c hc).2

theorem findClusters_confidence_constant_witness :
    exactEmailCluster ∈ findClusters [idJohnDoe, idJohnD] defaultMinConfidence ∧
    exactEmailCluster.confidence = 0.8 :=
  ⟨by with_unfolding_all decide,
    findClusters_confidence_constant [idJohnDoe, idJohnD] defaultMinConfidence
      exactEmailCluster (by with_unfolding_all decide)⟩

/-- C10: the call leaves the caller array unchanged (the source sorts a
spread copy, modelled by findClustersCallerArray returning the caller array
after the call), produces the same clusters as the pure function, and every
identity it emits is drawn unchanged from the input list. -/
theorem findClusters_caller_frame (authors : List Identity) (mc : ℚ) :
    (findClustersCallerArray authors mc).2 = authors ∧
    (findClustersCallerArray authors mc).1 = findClusters authors mc ∧
    ∀ c ∈ (findClustersCallerArray authors mc).1,
      c.canonical ∈ authors ∧ ∀ al ∈ c.aliases, al ∈ authors := by
  refine ⟨rfl, rfl, ?_⟩
  intro c hc
  have hsub := findClusters_cluster_subperm authors mc c hc
  exact ⟨hsub.subset (List.mem_cons_self _ _),
    fun al hal => hsub.subset (List.mem_cons_of_mem _ hal)⟩

theorem findClusters_caller_frame_witness :
    (findClustersCallerArray [idJohnDoe, idJohnD] defaultMinConfidence).2
        = [idJohnDoe, idJohnD] ∧
    exactEmailCluster ∈ (findClustersCallerArray [idJohnDoe, idJohnD]
        defaultMinConfidence).1 ∧
    exactEmailCluster.canonical ∈ [idJohnDoe, idJohnD] ∧
    ∀ al ∈ exactEmailCluster.aliases, al ∈ [idJohnDoe, idJohnD] :=
  ⟨(findClusters_caller_frame [idJohnDoe, idJohnD] defaultMinConfidence).1,
    by with_unfolding_all decide,
    ((findClusters_caller_frame [idJohnDoe, idJohnD] defaultMinConfidence).2.2
      exactEmailCluster (by with_unfolding_all decide)).1,
    ((findClusters_caller_frame [idJohnDoe, idJohnD] defaultMinConfidence).2.2
      exactEmailCluster (by with_unfolding_all decide)).2⟩

/-- C3 counterexample: with both arguments empty the equal-normalized-names
rule fires before the empty check, so nameSimilarity returns 1, not 0. -/
theorem nameSimilarity_empty_empty :
    nameSimilarity "" "" ≠ 0 ∧ nameSimilarity "" "" = 1 := by
  constructor
  · with_unfolding_all decide
  · with_unfolding_all decide

/-- C3 (amended): when exactly one of the two normalized names is empty,
nameSimilarity returns 0 in both argument orders; when both normalize to the
empty string the equal-normalized-names rule returns 1 instead. -/
theorem nameSimilarity_empty_cases (x y : String) (hx : normalizeName x = "") :
    nameSimilarity x y = (if normalizeName y = "" then 1 else 0) ∧
    nameSimilarity y x = (if normalizeName y = "" then 1 else 0) := by
  unfold nameSimilarity
  by_cases hy : normalizeName y = ""
  · simp [hx, hy]
  · have h1 : ¬ normalizeName x = normalizeName y := by
      rw [hx]; exact fun h => hy h.symm
    have h2 : ¬ normalizeName y = normalizeName x := fun h => h1 h.symm
    have h3 : ¬ "" = normalizeName y := fun h => hy h.symm
    simp [hx, hy, h1, h2, h3]

theorem nameSimilarity_empty_cases_witness :
    normalizeName "" = "" ∧
    nameSimilarity "" "John" = 0 ∧ nameSimilarity "John" "" = 0 := by
  have h := nameSimilarity_empty_cases "" "John" (by with_unfolding_all decide)
  refine ⟨by with_unfolding_all decide, ?_, ?_⟩
  · rw [h.1]
    with_unfolding_all decide
  · rw [h.2]
    with_unfolding_all decide

/-- C7: selectCanonical fails with the empty-input error exactly on the empty
identity list, and succeeds on every non-empty list (spec-modelled, since
src/mailmap.js is absent from the repository snapshot). -/
theorem selectCanonical_empty_error :
    selectCanonical [] = Except.error "selectCanonical: empty input" ∧
    ∀ l : List Identity, l ≠ [] → (selectCanonical l).isOk = true := by
  refine ⟨rfl, ?_⟩
  intro l hl
  match l with
  | [] => exact absurd rfl hl
  | [_] => rfl
  | _ :: _ :: _ => rfl

theorem selectCanonical_empty_error_witness :
    ([idJohnDoe] ≠ ([] : List Identity)) ∧
    (selectCanonical [idJohnDoe]).isOk = true :=
  ⟨by simp, selectCanonical_empty_error.2 [idJohnDoe] (by simp)⟩

/-- C8: generateStats satisfies authorsAfter = totalAuthorsBefore minus the
sum of alias counts, and reductionPercent is the rounded percentage of that
sum over totalAuthorsBefore, defined as 0 when totalAuthorsBefore is 0
(spec-modelled, since src/mailmap.js is absent from the repository
snapshot).  Math.round is the round of Mathlib: halves go up. -/
theorem generateStats_formulas (clusters : List IdentityCluster) (n : Nat) :
    (generateStats clusters n).aliasesConsolidated
        = (clusters.map (fun c => c.aliases.length)).sum ∧
    (generateStats clusters n).authorsAfter
        = (n : Int) - ((((clusters.map (fun c => c.aliases.length)).sum : ℕ)) : Int) ∧
    (generateStats clusters n).reductionPercent
        = if n = 0 then 0
          else round (((((clusters.map (fun c => c.aliases.length)).sum : ℕ)) : ℚ) / (n : ℚ) * 100) := by
  refine ⟨rfl, rfl, ?_⟩
  unfold generateStats jsRound
  by_cases h : n = 0
  · simp [h]
  · simp only [h, if_neg, not_false_iff]
    rw [round_eq]

/-! ### The dynamic-programming table computes the Levenshtein recurrence -/

theorem levRec_nil_left (ys : List Char) : levRec [] ys = ys.length := by
  simp [levRec]

theorem levRec_nil_right (xs : List Char) : levRec xs [] = xs.length := by
  cases xs <;> simp [levRec]

theorem levRec_cons_cons (x y : Char) (xs ys : List Char) :
    levRec (x :: xs) (y :: ys) =
      if x = y then levRec xs ys
      else 1 + min (levRec xs ys)
        (min (levRec (x :: xs) ys) (levRec xs (y :: ys))) := by
  rw [levRec]

theorem levRecRev_nil_left (ys : List Char) : levRecRev [] ys = ys.length := by
  simp [levRecRev, levRec_nil_left]

theorem levRecRev_nil_right (xs : List Char) : levRecRev xs [] = xs.length := by
  simp [levRecRev, levRec_nil_right]

theorem levRecRev_snoc_snoc (x y : Char) (xs ys : List Char) :
    levRecRev (xs ++ [x]) (ys ++ [y]) =
      if x = y then levRecRev xs ys
      else 1 + min (levRecRev xs ys)
        (min (levRecRev (xs ++ [x]) ys) (levRecRev xs (ys ++ [y]))) := by
  unfold levRecRev
  simp only [List.reverse_append, List.reverse_cons, List.reverse_nil,
    List.nil_append, List.singleton_append]
  rw [levRec_cons_cons]

theorem inits_cons_tail (l : List α) : l.inits = [] :: l.inits.tail := by
  cases l <;> simp [List.inits_cons, List.inits]

theorem levRow_spec (bc : Char) (p : List Char) :
    ∀ (suf pre : List Char),
      levRow bc suf ((suf.inits).map (fun s => levRecRev (pre ++ s) p))
          (levRecRev pre (p ++ [bc]))
        = (suf.inits).tail.map (fun s => levRecRev (pre ++ s) (p ++ [bc]))
  | [], pre => by simp [levRow, List.inits]
  | xh :: rest, pre => by
    rw [List.inits_cons]
    simp only [List.map_cons, List.map_map, List.append_nil, List.tail_cons,
      Function.comp_def]
    rw [inits_cons_tail rest]
    simp only [List.map_cons, levRow, List.headD_cons]
    have hcell :
        (if bc = xh then levRecRev pre p
          else 1 + min (levRecRev pre p)
            (min (levRecRev pre (p ++ [bc])) (levRecRev (pre ++ xh :: []) p)))
          = levRecRev (pre ++ [xh]) (p ++ [bc]) := by
      rw [levRecRev_snoc_snoc]
      by_cases hxy : xh = bc
      · rw [if_pos hxy, if_pos hxy.symm]
      · rw [if_neg hxy, if_neg (fun h => hxy h.symm)]
        rw [min_comm (levRecRev pre (p ++ [bc])) (levRecRev (pre ++ [xh]) p)]
    rw [hcell]
    have ih := levRow_spec bc p rest (pre ++ [xh])
    rw [inits_cons_tail rest] at ih
    simp only [List.map_cons, List.append_assoc, List.singleton_append,
      List.append_nil, List.tail_cons] at ih
    rw [ih]

theorem levTable_fold (a : List Char) :
    ∀ (bs p : List Char),
      (bs.foldl (fun st bc => ((st.2 + 1) :: levRow bc a st.1 (st.2 + 1), st.2 + 1))
          ((a.inits).map (fun s => levRecRev s p), p.length))
        = ((a.inits).map (fun s => levRecRev s (p ++ bs)), (p ++ bs).length)
  | [], p => by simp
  | bc :: bs, p => by
    rw [List.foldl_cons]
    have hn : levRecRev [] (p ++ [bc]) = p.length + 1 := by
      rw [levRecRev_nil_left]; simp
    have hrow : ((p.length + 1) ::
          levRow bc a ((a.inits).map (fun s => levRecRev s p)) (p.length + 1))
        = (a.inits).map (fun s => levRecRev s (p ++ [bc])) := by
      have hsp := levRow_spec bc p a []
      simp only [List.nil_append] at hsp
      rw [hn] at hsp
      conv_rhs => rw [inits_cons_tail a]
      simp only [List.map_cons]
      rw [hsp, hn]
    have hstep :
        (((p.length + 1) ::
            levRow bc a ((a.inits).map (fun s => levRecRev s p)) (p.length + 1),
          p.length + 1) : List Nat × Nat)
        = ((a.inits).map (fun s => levRecRev s (p ++ [bc])), (p ++ [bc]).length) := by
      rw [hrow]; simp
    rw [hstep, levTable_fold a bs (p ++ [bc])]
    simp [List.append_assoc]

theorem inits_map_length : ∀ (l : List α),
    (l.inits).map (fun s => s.length) = List.range (l.length + 1)
  | [] => rfl
  | x :: xs => by
    rw [List.inits_cons]
    simp only [List.map_cons, List.map_map, List.length_cons, List.length_nil,
      Function.comp]
    rw [List.range_succ_eq_map, ← inits_map_length xs]
    simp [List.map_map, Function.comp, Nat.succ_eq_add_one]

theorem map_inits_getLastD : ∀ (l : List α) (f : List α → β) (d : β),
    ((l.inits).map f).getLastD d = f l
  | [], f, d => by simp [List.inits]
  | x :: xs, f, d => by
    rw [List.inits_cons]
    simp only [List.map_cons, List.map_map, List.getLastD_cons, Function.comp]
    exact map_inits_getLastD xs (fun s => f (x :: s)) (f [])

theorem levenshtein_eq_levRecRev (a b : String) :
    levenshtein a b = levRecRev a.data b.data := by
  unfold levenshtein
  by_cases ha : a.length = 0
  · rw [if_pos ha]
    have had : a.data = [] := List.length_eq_zero.mp ha
    rw [had, levRecRev_nil_left]
    rfl
  · rw [if_neg ha]
    by_cases hb : b.length = 0
    · rw [if_pos hb]
      have hbd : b.data = [] := List.length_eq_zero.mp hb
      rw [hbd, levRecRev_nil_right]
      rfl
    · rw [if_neg hb]
      unfold levTable
      have hinit : List.range (a.data.length + 1)
          = (a.data.inits).map (fun s => levRecRev s []) := by
        rw [← inits_map_length a.data]
        refine List.map_congr_left ?_
        intro s _
        exact (levRecRev_nil_right s).symm
      have hfold := levTable_fold a.data b.data []
      simp only [List.length_nil, List.nil_append] at hfold
      rw [hinit, hfold]
      exact map_inits_getLastD a.data (fun s => levRecRev s b.data) 0

/-! ### The recurrence computes the minimum number of edit operations -/

theorem edits_nil_left : ∀ ys : List Char, Edits [] ys ys.length
  | [] => Edits.nil
  | y :: ys => Edits.insertCh y (edits_nil_left ys)

theorem edits_nil_right : ∀ xs : List Char, Edits xs [] xs.length
  | [] => Edits.nil
  | x :: xs => Edits.deleteCh x (edits_nil_right xs)

theorem edits_levRec : ∀ (N : Nat) (xs ys : List Char),
    xs.length + ys.length ≤ N → Edits xs ys (levRec xs ys)
  | _, [], ys, _ => by
    rw [levRec_nil_left]; exact edits_nil_left ys
  | _, x :: xs, [], _ => by
    rw [levRec_nil_right]; exact edits_nil_right (x :: xs)
  | 0, x :: xs, y :: ys, h => by simp at h
  | N + 1, x :: xs, y :: ys, h => by
    have hm : xs.length + ys.length + 2 ≤ N + 1 := by
      simpa [Nat.add_assoc, Nat.add_comm, Nat.add_left_comm] using h
    rw [levRec_cons_cons]
    by_cases hxy : x = y
    · subst hxy
      rw [if_pos rfl]
      exact Edits.keep x (edits_levRec N xs ys (by omega))
    · rw [if_neg hxy]
      rcases min_choice (levRec xs ys)
          (min (levRec (x :: xs) ys) (levRec xs (y :: ys))) with h1 | h1
      · rw [h1, Nat.add_comm]
        exact Edits.substCh hxy (edits_levRec N xs ys (by omega))
      · rw [h1]
        rcases min_choice (levRec (x :: xs) ys) (levRec xs (y :: ys)) with h2 | h2
        · rw [h2, Nat.add_comm]
          exact Edits.insertCh y (edits_levRec N (x :: xs) ys (by simp; omega))
        · rw [h2, Nat.add_comm]
          exact Edits.deleteCh x (edits_levRec N xs (y :: ys) (by simp; omega))

theorem edits_exists (xs ys : List Char) : Edits xs ys (levRec xs ys) :=
  edits_levRec (xs.length + ys.length) xs ys le_rfl

theorem levRec_adjacent : ∀ (N : Nat) (xs ys : List Char),
    xs.length + ys.length ≤ N →
    (∀ b, levRec xs (b :: ys) ≤ levRec xs ys + 1) ∧
    (∀ b, levRec xs ys ≤ levRec xs (b :: ys) + 1) ∧
    (∀ a, levRec (a :: xs) ys ≤ levRec xs ys + 1) ∧
    (∀ a, levRec xs ys ≤ levRec (a :: xs) ys + 1)
  | 0, xs, ys, h => by
    have hx : xs = [] := by
      cases xs with
      | nil => rfl
      | cons _ _ => simp at h
    have hy : ys = [] := by
      cases ys with
      | nil => rfl
      | cons _ _ => rw [hx] at h; simp at h
    subst hx; subst hy
    refine ⟨fun b => ?_, fun b => ?_, fun a => ?_, fun a => ?_⟩ <;>
      simp [levRec_nil_left, levRec_nil_right]
  | N + 1, xs, ys, h => by
    refine ⟨fun b => ?_, fun b => ?_, fun a => ?_, fun a => ?_⟩
    · -- insert bound: levRec xs (b :: ys) ≤ levRec xs ys + 1
      match xs with
      | [] => simp [levRec_nil_left]
      | x :: xs' =>
        rw [levRec_cons_cons]
        by_cases hxb : x = b
        · rw [if_pos hxb]
          have hb2 := (levRec_adjacent N xs' ys (by simp at h; omega)).2.2.2
          exact hb2 x
        · rw [if_neg hxb]
          have hmin : min (levRec xs' ys)
              (min (levRec (x :: xs') ys) (levRec xs' (b :: ys)))
              ≤ levRec (x :: xs') ys :=
            le_trans (min_le_right _ _) (min_le_left _ _)
          omega
    · -- reverse insert bound: levRec xs ys ≤ levRec xs (b :: ys) + 1
      match xs with
      | [] =>
        simp only [levRec_nil_left, List.length_cons]
        omega
      | x :: xs' =>
        rw [levRec_cons_cons]
        by_cases hxb : x = b
        · rw [if_pos hxb]
          have hb1 := (levRec_adjacent N xs' ys (by simp at h; omega)).2.2.1
          exact hb1 x
        · rw [if_neg hxb]
          have ihA2 := (levRec_adjacent N xs' ys (by simp at h; omega)).2.1 b
          have ihB1 := (levRec_adjacent N xs' ys (by simp at h; omega)).2.2.1 x
          rcases min_choice (levRec xs' ys)
              (min (levRec (x :: xs') ys) (levRec xs' (b :: ys))) with h1 | h1 <;>
            rw [h1]
          · omega
          · rcases min_choice (levRec (x :: xs') ys) (levRec xs' (b :: ys)) with h2 | h2 <;>
              rw [h2]
            · omega
            · omega
    · -- delete bound: levRec (a :: xs) ys ≤ levRec xs ys + 1
      match ys with
      | [] => simp [levRec_nil_right]
      | y :: ys' =>
        rw [levRec_cons_cons]
        by_cases hay : a = y
        · rw [if_pos hay]
          have ha2 := (levRec_adjacent N xs ys' (by simp at h; omega)).2.1
          exact ha2 y
        · rw [if_neg hay]
          have hmin : min (levRec xs ys')
              (min (levRec (a :: xs) ys') (levRec xs (y :: ys')))
              ≤ levRec xs (y :: ys') :=
            le_trans (min_le_right _ _) (min_le_right _ _)
          omega
    · -- reverse delete bound: levRec xs ys ≤ levRec (a :: xs) ys + 1
      match ys with
      | [] =>
        simp only [levRec_nil_right, List.length_cons]
        omega
      | y :: ys' =>
        rw [levRec_cons_cons]
        by_cases hay : a = y
        · rw [if_pos hay]
          have ha1 := (levRec_adjacent N xs ys' (by simp at h; omega)).1
          exact ha1 y
        · rw [if_neg hay]
          have ihA1 := (levRec_adjacent N xs ys' (by simp at h; omega)).1 y
          have ihB2 := (levRec_adjacent N xs ys' (by simp at h; omega)).2.2.2 a
          rcases min_choice (levRec xs ys')
              (min (levRec (a :: xs) ys') (levRec xs (y :: ys'))) with h1 | h1 <;>
            rw [h1]
          · omega
          · rcases min_choice (levRec (a :: xs) ys') (levRec xs (y :: ys')) with h2 | h2 <;>
              rw [h2]
            · omega
            · omega

theorem levRec_le_edits {xs ys : List Char} {n : Nat}
    (h : Edits xs ys n) : levRec xs ys ≤ n := by
  induction h with
  | nil => simp [levRec_nil_left]
  | keep a _ ih =>
    rw [levRec_cons_cons, if_pos rfl]
    exact ih
  | @substCh xs' ys' n' a b hne _ ih =>
    rw [levRec_cons_cons, if_neg hne]
    have hm := min_le_left (levRec xs' ys')
      (min (levRec (a :: xs') ys') (levRec xs' (b :: ys')))
    omega
  | @insertCh xs' ys' n' b _ ih =>
    have hm := (levRec_adjacent (xs'.length + ys'.length) xs' ys' le_rfl).1 b
    omega
  | @deleteCh xs' ys' n' a _ ih =>
    have hm := (levRec_adjacent (xs'.length + ys'.length) xs' ys' le_rfl).2.2.1 a
    omega

theorem levRec_isLeast (xs ys : List Char) :
    IsLeast {n | Edits xs ys n} (levRec xs ys) :=
  ⟨edits_exists xs ys, fun _ hn => levRec_le_edits hn⟩

theorem edits_keep_snoc (a : Char) {xs ys : List Char} {n : Nat}
    (h : Edits xs ys n) : Edits (xs ++ [a]) (ys ++ [a]) n := by
  induction h with
  | nil => exact Edits.keep a Edits.nil
  | keep c _ ih => exact Edits.keep c ih
  | substCh hne _ ih => exact Edits.substCh hne ih
  | insertCh b _ ih => exact Edits.insertCh b ih
  | deleteCh c _ ih => exact Edits.deleteCh c ih

theorem edits_subst_snoc {a b : Char} (hne : a ≠ b) {xs ys : List Char} {n : Nat}
    (h : Edits xs ys n) : Edits (xs ++ [a]) (ys ++ [b]) (n + 1) := by
  induction h with
  | nil => exact Edits.substCh hne Edits.nil
  | keep c _ ih => exact Edits.keep c ih
  | substCh hne' _ ih => exact Edits.substCh hne' ih
  | insertCh c _ ih => exact Edits.insertCh c ih
  | deleteCh c _ ih => exact Edits.deleteCh c ih

theorem edits_insert_snoc (b : Char) {xs ys : List Char} {n : Nat}
    (h : Edits xs ys n) : Edits xs (ys ++ [b]) (n + 1) := by
  induction h with
  | nil => exact Edits.insertCh b Edits.nil
  | keep c _ ih => exact Edits.keep c ih
  | substCh hne _ ih => exact Edits.substCh hne ih
  | insertCh c _ ih => exact Edits.insertCh c ih
  | deleteCh c _ ih => exact Edits.deleteCh c ih

theorem edits_delete_snoc (a : Char) {xs ys : List Char} {n : Nat}
    (h : Edits xs ys n) : Edits (xs ++ [a]) ys (n + 1) := by
  induction h with
  | nil => exact Edits.deleteCh a Edits.nil
  | keep c _ ih => exact Edits.keep c ih
  | substCh hne _ ih => exact Edits.substCh hne ih
  | insertCh c _ ih => exact Edits.insertCh c ih
  | deleteCh c _ ih => exact Edits.deleteCh c ih

theorem edits_reverse {xs ys : List Char} {n : Nat}
    (h : Edits xs ys n) : Edits xs.reverse ys.reverse n := by
  induction h with
  | nil => exact Edits.nil
  | keep a _ ih => simpa [List.reverse_cons] using edits_keep_snoc a ih
  | substCh hne _ ih => simpa [List.reverse_cons] using edits_subst_snoc hne ih
  | insertCh b _ ih => simpa [List.reverse_cons] using edits_insert_snoc b ih
  | deleteCh a _ ih => simpa [List.reverse_cons] using edits_delete_snoc a ih

theorem edits_reverse_iff {xs ys : List Char} {n : Nat} :
    Edits xs.reverse ys.reverse n ↔ Edits xs ys n :=
  ⟨fun h => by simpa using edits_reverse h, edits_reverse⟩

theorem edits_symm {xs ys : List Char} {n : Nat}
    (h : Edits xs ys n) : Edits ys xs n := by
  induction h with
  | nil => exact Edits.nil
  | keep a _ ih => exact Edits.keep a ih
  | substCh hne _ ih => exact Edits.substCh (Ne.symm hne) ih
  | insertCh b _ ih => exact Edits.deleteCh b ih
  | deleteCh a _ ih => exact Edits.insertCh a ih

/-- The value computed by the dynamic-programming table of the source is the
least edit-script cost between the character lists of the two strings. -/
theorem levenshtein_isLeast (a b : String) :
    IsLeast {n | Edits a.data b.data n} (levenshtein a b) := by
  rw [levenshtein_eq_levRecRev]
  unfold levRecRev
  have h := levRec_isLeast a.data.reverse b.data.reverse
  constructor
  · have hm := h.1
    simpa using edits_reverse hm
  · intro n hn
    exact h.2 (edits_reverse hn)

theorem levenshtein_symm (a b : String) : levenshtein a b = levenshtein b a := by
  have hset : {n | Edits a.data b.data n} = {n | Edits b.data a.data n} :=
    Set.ext fun n => ⟨fun h => edits_symm h, fun h => edits_symm h⟩
  exact (levenshtein_isLeast a b).unique (hset ▸ levenshtein_isLeast b a)

/-- C5: under the fallback conditions of the source (both normalized names
non-empty, unequal, neither containing the other, word-overlap Jaccard at
most one half), nameSimilarity equals 1 - d / max(|n1|, |n2|), where d is the
least number of single-character insert, delete or substitute operations
transforming the normalized first name into the normalized second name. -/
theorem nameSimilarity_levenshtein_formula (a b : String)
    (h1 : normalizeName a ≠ "") (h2 : normalizeName b ≠ "")
    (h3 : normalizeName a ≠ normalizeName b)
    (h4 : strIncludes (normalizeName a) (normalizeName b) = false)
    (h5 : strIncludes (normalizeName b) (normalizeName a) = false)
    (h6 : jaccardSim (normalizeName a) (normalizeName b) ≤ 1 / 2) :
    ∃ d : ℕ,
      IsLeast {n | Edits (normalizeName a).data (normalizeName b).data n} d ∧
      nameSimilarity a b =
        1 - (d : ℚ) / (max (normalizeName a).length (normalizeName b).length : ℚ) := by
  refine ⟨levenshtein (normalizeName a) (normalizeName b),
    levenshtein_isLeast _ _, ?_⟩
  unfold nameSimilarity
  have hjac : ¬ (jaccardSim (normalizeName a) (normalizeName b) > (0.5 : ℚ)) := by
    rw [show (0.5 : ℚ) = 1 / 2 by norm_num]
    exact not_lt.mpr h6
  simp [h3, h1, h2, h4, h5, hjac]

theorem nameSimilarity_levenshtein_formula_witness :
    (normalizeName "abc" ≠ "" ∧ normalizeName "abd" ≠ "" ∧
      normalizeName "abc" ≠ normalizeName "abd" ∧
      strIncludes (normalizeName "abc") (normalizeName "abd") = false ∧
      strIncludes (normalizeName "abd") (normalizeName "abc") = false ∧
      jaccardSim (normalizeName "abc") (normalizeName "abd") ≤ 1 / 2) ∧
    ∃ d : ℕ,
      IsLeast {n | Edits (normalizeName "abc").data (normalizeName "abd").data n} d ∧
      nameSimilarity "abc" "abd" =
        1 - (d : ℚ) / (max (normalizeName "abc").length (normalizeName "abd").length : ℚ) :=
  ⟨⟨by with_unfolding_all decide, by with_unfolding_all decide,
      by with_unfolding_all decide, by with_unfolding_all decide,
      by with_unfolding_all decide, by with_unfolding_all decide⟩,
    nameSimilarity_levenshtein_formula "abc" "abd"
      (by with_unfolding_all decide) (by with_unfolding_all decide)
      (by with_unfolding_all decide) (by with_unfolding_all decide)
      (by with_unfolding_all decide) (by with_unfolding_all decide)⟩

/-! ### Symmetry of the similarity scorers -/

theorem filter_mem_toFinset (l1 l2 : List (List Char)) :
    (l1.filter (fun w => w ∈ l2)).toFinset = l1.toFinset ∩ l2.toFinset := by
  ext x
  simp [List.mem_filter]

theorem filter_mem_length_comm (l1 l2 : List (List Char))
    (h1 : l1.Nodup) (h2 : l2.Nodup) :
    (l1.filter (fun w => w ∈ l2)).length = (l2.filter (fun w => w ∈ l1)).length := by
  have e1 : (l1.filter (fun w => w ∈ l2)).length
      = (l1.toFinset ∩ l2.toFinset).card := by
    rw [← filter_mem_toFinset, List.card_toFinset,
      List.Nodup.dedup (h1.filter _)]
  have e2 : (l2.filter (fun w => w ∈ l1)).length
      = (l2.toFinset ∩ l1.toFinset).card := by
    rw [← filter_mem_toFinset, List.card_toFinset,
      List.Nodup.dedup (h2.filter _)]
  rw [e1, e2, Finset.inter_comm]

theorem append_dedup_length_comm (l1 l2 : List (List Char)) :
    (l1 ++ l2).dedup.length = (l2 ++ l1).dedup.length := by
  rw [← List.card_toFinset, ← List.card_toFinset, List.toFinset_append,
    List.toFinset_append, Finset.union_comm]

theorem jaccardSim_symm (n1 n2 : String) : jaccardSim n1 n2 = jaccardSim n2 n1 := by
  simp only [jaccardSim]
  rw [filter_mem_length_comm _ _ (List.nodup_dedup _) (List.nodup_dedup _),
    append_dedup_length_comm]

theorem nameSimilarity_symm (x y : String) :
    nameSimilarity x y = nameSimilarity y x := by
  simp only [nameSimilarity]
  generalize normalizeName x = n1
  generalize normalizeName y = n2
  by_cases h1 : n1 = n2
  · rw [h1]
  · have h1' : ¬ n2 = n1 := fun h => h1 h.symm
    by_cases h2 : n1 = "" ∨ n2 = ""
    · simp [h1, h1', h2, Or.symm h2]
    · have h2' : ¬ (n2 = "" ∨ n1 = "") := fun h => h2 (Or.symm h)
      by_cases h3 : (strIncludes n1 n2 || strIncludes n2 n1) = true
      · have h3' : (strIncludes n2 n1 || strIncludes n1 n2) = true := by
          rwa [Bool.or_comm] at h3
        simp [h1, h1', h2, h2', h3, h3']
      · have h3' : ¬ (strIncludes n2 n1 || strIncludes n1 n2) = true :=
          fun h => h3 (by rwa [Bool.or_comm] at h)
        by_cases h4 : jaccardSim n1 n2 > (0.5 : ℚ)
        · have h4' : jaccardSim n2 n1 > (0.5 : ℚ) := by
            rwa [jaccardSim_symm] at h4
          have hj := jaccardSim_symm n1 n2
          simp [h1, h1', h2, h2', h3, h3', h4, h4', hj]
        · have h4' : ¬ jaccardSim n2 n1 > (0.5 : ℚ) :=
            fun h => h4 (by rwa [jaccardSim_symm] at h)
          have hl := levenshtein_symm n1 n2
          simp [h1, h1', h2, h2', h3, h3', h4, h4', hl, max_comm]

/-- C6: emailsMatch returns the same verdict (match flag, confidence and
reason) in both argument orders: every rule of the chain is either symmetric
in the two emails or present in both orientations. -/
theorem emailsMatch_symm (e1 e2 : String) :
    emailsMatch e1 e2 = emailsMatch e2 e1 := by
  simp only [emailsMatch]
  generalize jsToLower e1 = a
  generalize jsToLower e2 = b
  rcases hga : ghUsername a with _ | u1 <;> rcases hgb : ghUsername b with _ | u2 <;>
    simp only [hga, hgb] <;> split_ifs <;> try rfl
  all_goals exfalso
  all_goals try exact ‹¬ b = a› ‹a = b›.symm
  all_goals try exact ‹¬ a = b› ‹b = a›.symm
  all_goals try exact ‹¬ u2 = u1› ‹u1 = u2›.symm
  all_goals try exact ‹¬ u1 = u2› ‹u2 = u1›.symm
  all_goals try
    (obtain ⟨he, hl⟩ := ‹emailLocal a = emailLocal b ∧ 3 < (emailLocal a).length›
     apply ‹¬ (emailLocal b = emailLocal a ∧ 3 < (emailLocal b).length)›
     refine ⟨he.symm, ?_⟩
     rwa [he] at hl)
  all_goals
    (obtain ⟨he, hl⟩ := ‹emailLocal b = emailLocal a ∧ 3 < (emailLocal b).length›
     apply ‹¬ (emailLocal a = emailLocal b ∧ 3 < (emailLocal a).length)›
     refine ⟨he.symm, ?_⟩
     rwa [he] at hl)

/-! ### Clustering two identities that share an email -/

theorem emailsMatch_exact_of_eq (e1 e2 : String) (h : e1 = e2) :
    emailsMatch e1 e2 = ⟨true, 1, "exact-email"⟩ := by
  subst h
  simp [emailsMatch]

theorem pairScore_same_email (c d : Identity) (h : c.email = d.email) :
    pairScore c d =
      if nameSimilarity c.name d.name < (0.3 : ℚ)
        then ((0.6 : ℚ), "exact-email-name-mismatch")
        else ((1 : ℚ), "exact-email") := by
  simp only [pairScore, emailsMatch_exact_of_eq c.email d.email h]
  by_cases hs : nameSimilarity c.name d.name < (0.3 : ℚ)
  · simp [hs]
  · simp [hs]

theorem buildClusters_pair_same_email (p q : Identity) (hpe : p.email = q.email) :
    buildClusters defaultMinConfidence [p, q]
      = [⟨p, [q], clusterConfidence [q],
          if nameSimilarity p.name q.name < (0.3 : ℚ)
            then "exact-email-name-mismatch" else "exact-email"⟩] := by
  unfold buildClusters
  simp only [List.length_cons, List.length_nil]
  show buildClustersFuel defaultMinConfidence 2 [p, q] = _
  have hc6 : defaultMinConfidence ≤ (0.6 : ℚ) := le_rfl
  have hc1 : defaultMinConfidence ≤ (1 : ℚ) := by
    unfold defaultMinConfidence; norm_num
  by_cases hs : nameSimilarity p.name q.name < (0.3 : ℚ)
  · simp [buildClustersFuel, collectAliases,
      pairScore_same_email p q hpe, hs, hc6, hc1]
  · simp [buildClustersFuel, collectAliases,
      pairScore_same_email p q hpe, hs, hc6, hc1]

/-- C2 counterexample: two identities with exactly equal emails but unrelated
names are clustered with the discounted reason exact-email-name-mismatch, not
exact-email. -/
theorem findClusters_exact_email_reason_fails :
    idAliceShared.email = idBobShared.email ∧
    (findClusters [idAliceShared, idBobShared] defaultMinConfidence).map
      (fun c => c.reason) = ["exact-email-name-mismatch"] := by
  constructor
  · rfl
  · with_unfolding_all decide

/-- C2 (amended): two identities with exactly equal email strings always form
exactly one cluster at the default minConfidence 0.6, and the reason of that
cluster is exact-email when the similarity of the two names is at least 0.3,
and exact-email-name-mismatch when it is below 0.3 (the discount rule of the
source). -/
theorem findClusters_same_email_cluster (i1 i2 : Identity)
    (h : i1.email = i2.email) :
    (findClusters [i1, i2] defaultMinConfidence).length = 1 ∧
    ∀ c ∈ findClusters [i1, i2] defaultMinConfidence,
      c.reason = if nameSimilarity i1.name i2.name < (0.3 : ℚ)
        then "exact-email-name-mismatch" else "exact-email" := by
  unfold findClusters
  by_cases hb : byCommitsDesc i1 i2
  · have hsort : stableSort byCommitsDesc [i1, i2] = [i1, i2] := by
      simp [stableSort, sortInsert, hb]
    rw [hsort, buildClusters_pair_same_email i1 i2 h]
    simp [stableSort, sortInsert]
  · have hsort : stableSort byCommitsDesc [i1, i2] = [i2, i1] := by
      simp [stableSort, sortInsert, hb]
    rw [hsort, buildClusters_pair_same_email i2 i1 h.symm]
    simp [stableSort, sortInsert, nameSimilarity_symm i2.name i1.name]

theorem findClusters_same_email_cluster_witness :
    idJohnDoe.email = idJohnD.email ∧
    (findClusters [idJohnDoe, idJohnD] defaultMinConfidence).length = 1 ∧
    ∀ c ∈ findClusters [idJohnDoe, idJohnD] defaultMinConfidence,
      c.reason = if nameSimilarity idJohnDoe.name idJohnD.name < (0.3 : ℚ)
        then "exact-email-name-mismatch" else "exact-email" :=
  ⟨rfl, (findClusters_same_email_cluster idJohnDoe idJohnD rfl).1,
    (findClusters_same_email_cluster idJohnDoe idJohnD rfl).2⟩

/-! ### Monotonicity of minConfidence -/

/-- C1 counterexample: on the five-identity input, lowering minConfidence
from 1 to 7/10 makes the highest-commit identity absorb the partners of the
two exact-email pairs, so the number of clusters drops from two to one. -/
theorem findClusters_minConfidence_monotonicity_fails :
    (7 : ℚ) / 10 ≤ 1 ∧
    (findClusters monotoneCounterInput ((7 : ℚ) / 10)).length
      < (findClusters monotoneCounterInput 1).length := by
  constructor
  · with_unfolding_all decide
  · with_unfolding_all decide

theorem buildClusters_pair_length (p q : Identity) (t : ℚ) :
    (buildClusters t [p, q]).length
      = if t ≤ (pairScore p q).1 then 1 else 0 := by
  unfold buildClusters
  show (buildClustersFuel t 2 [p, q]).length = _
  by_cases hc : t ≤ (pairScore p q).1
  · simp [buildClustersFuel, collectAliases, hc]
  · simp [buildClustersFuel, collectAliases, hc]

theorem findClusters_pair_length (x y : Identity) (t : ℚ) :
    (findClusters [x, y] t).length
      = if byCommitsDesc x y
          then (if t ≤ (pairScore x y).1 then 1 else 0)
          else (if t ≤ (pairScore y x).1 then 1 else 0) := by
  unfold findClusters
  rw [(stableSort_perm byTotalCommitsDesc _).length_eq]
  by_cases hb : byCommitsDesc x y
  · have hsort : stableSort byCommitsDesc [x, y] = [x, y] := by
      simp [stableSort, sortInsert, hb]
    rw [hsort, buildClusters_pair_length, if_pos hb]
  · have hsort : stableSort byCommitsDesc [x, y] = [y, x] := by
      simp [stableSort, sortInsert, hb]
    rw [hsort, buildClusters_pair_length, if_neg hb]

/-- C1 (amended): restricted to inputs of at most two identities, lowering
minConfidence never decreases the number of clusters: for the only possible
pair, clustering at the higher threshold implies clustering at the lower one.
On longer inputs the property fails (see the five-identity counterexample):
identities consumed early at a low threshold can break apart several clusters
that a higher threshold would have formed. -/
theorem findClusters_minConfidence_monotone_of_short (authors : List Identity)
    (t1 t2 : ℚ) (hlen : authors.length ≤ 2) (hle : t1 ≤ t2) :
    (findClusters authors t2).length ≤ (findClusters authors t1).length := by
  have hpair : ∀ (s : ℚ),
      (if t2 ≤ s then (1 : Nat) else 0) ≤ (if t1 ≤ s then 1 else 0) := by
    intro s
    by_cases h2 : t2 ≤ s
    · rw [if_pos h2, if_pos (le_trans hle h2)]
    · rw [if_neg h2]
      exact Nat.zero_le _
  rcases authors with _ | ⟨x, _ | ⟨y, _ | ⟨z, rest⟩⟩⟩
  · exact le_rfl
  · have hone : ∀ t : ℚ, findClusters [x] t = [] := by
      intro t
      rfl
    rw [hone t1, hone t2]
  · rw [findClusters_pair_length, findClusters_pair_length]
    by_cases hb : byCommitsDesc x y
    · rw [if_pos hb, if_pos hb]
      exact hpair _
    · rw [if_neg hb, if_neg hb]
      exact hpair _
  · simp at hlen

theorem findClusters_minConfidence_monotone_witness :
    ([idAliceShared, idBobShared] : List Identity).length ≤ 2 ∧
    (3 : ℚ) / 10 ≤ (9 : ℚ) / 10 ∧
    (findClusters [idAliceShared, idBobShared] ((9 : ℚ) / 10)).length
      ≤ (findClusters [idAliceShared, idBobShared] ((3 : ℚ) / 10)).length :=
  ⟨by simp, by with_unfolding_all decide,
    findClusters_minConfidence_monotone_of_short [idAliceShared, idBobShared]
      ((3 : ℚ) / 10) ((9 : ℚ) / 10) (by simp) (by with_unfolding_all decide)⟩

end AuthorSync
